import Mathlib

/-!
Shallow embedding of the encrypted CRUD lambda handler of this repository
(the AES-256-CBC field-encryption pipeline with conditional partial updates)
together with the older unencrypted handler variant, and proofs of the
specification claims about them.

Modelling conventions:
* JavaScript strings are modelled as lists of natural-number character codes
  (`List Nat`); the byte serialisation applied by the cipher layer truncates
  each code with an explicit `% 256` (`toBytes`).
* The AES-256 block primitive lives in Node's crypto library, outside this
  repository; it is modelled as an abstract 16-byte block permutation `E`
  with inverse `D`.  CBC chaining, PKCS#7 padding, the hex/colon wire form
  and all handler logic are translated from the source.
* The DynamoDB table is modelled as a list of stored items keyed by `id`;
  `put` / conditional `update` / `delete`-returning-old are translated to
  the corresponding list operations, and each handler also reports the list
  of storage calls it performed.
* Randomness (fresh ivs, uuid) is supplied to each operation as explicit
  arguments.
-/

/-- Character codes of a Lean string literal; used to write concrete
JavaScript strings in examples and witnesses. -/
def strB (s : String) : List Nat := s.data.map Char.toNat

/-- Byte serialisation of a string: each character code reduced mod 256
(the cipher layer of the source operates on the byte serialisation of its
input string). -/
def toBytes (s : List Nat) : List Nat := s.map (fun c => c % 256)

/-- Character code of the lowercase hex digit for `d % 16`-style inputs
(`0`-`9` then `a`-`f`), as produced by Buffer.toString with hex encoding. -/
def hexDigitChar (d : Nat) : Nat := if d < 10 then 48 + d else 87 + d

/-- The two lowercase hex digit character codes of a byte (`% 256` made
explicit). -/
def byteHex (n : Nat) : List Nat := [hexDigitChar (n % 256 / 16), hexDigitChar (n % 16)]

/-- Hex encoding of a byte list: Buffer.toString with hex encoding. -/
def bytesHex (l : List Nat) : List Nat := (l.map byteHex).flatten

/-- Decode one hex digit character code (lenient like Buffer.from with hex
encoding: accepts both cases), `none` on a non-hex character. -/
def unhexDigit (c : Nat) : Option Nat :=
  if 48 ≤ c ∧ c ≤ 57 then some (c - 48)
  else if 97 ≤ c ∧ c ≤ 102 then some (c - 87)
  else if 65 ≤ c ∧ c ≤ 70 then some (c - 55)
  else none

/-- Buffer.from with hex encoding: decodes two characters per byte,
truncating at the first invalid character or dangling odd digit. -/
def hexDecodeLenient : List Nat → List Nat
  | c1 :: c2 :: rest =>
    match unhexDigit c1, unhexDigit c2 with
    | some h, some l => (16 * h + l) :: hexDecodeLenient rest
    | _, _ => []
  | _ => []

/-- Split a string at its FIRST colon (code 58): the source does
`parts = text.split(':'); iv = parts.shift(); rest = parts.join(':')`,
which is exactly prefix-before-first-colon / suffix-after-first-colon
(the suffix is empty when there is no colon, matching the join of an
empty tail). -/
def breakColon : List Nat → List Nat × List Nat
  | [] => ([], [])
  | c :: rest =>
    if c = 58 then ([], rest)
    else
      let p := breakColon rest
      (c :: p.1, p.2)

/-- A well-formed 16-byte cipher block: length 16 and every entry a byte. -/
def Valid16 (b : List Nat) : Prop := b.length = 16 ∧ ∀ x ∈ b, x < 256

/-- Bytewise xor of two blocks. -/
def xorB (a b : List Nat) : List Nat := List.zipWith Nat.xor a b

/-- Split a byte list into 16-byte blocks (the last block may be short when
the length is not a multiple of 16). -/
def chunk16 (l : List Nat) : List (List Nat) :=
  if h : l = [] then []
  else
    have : l.length - 16 < l.length := by
      have : 0 < l.length := List.length_pos.mpr h
      omega
    l.take 16 :: chunk16 (l.drop 16)
termination_by l.length
decreasing_by simpa [List.length_drop] using this

/-- PKCS#7 padding as applied by the Node cipher: append `k` copies of `k`
where `k = 16 - len % 16` (so `1 ≤ k ≤ 16`). -/
def pad16 (l : List Nat) : List Nat :=
  l ++ List.replicate (16 - l.length % 16) (16 - l.length % 16)

/-- PKCS#7 unpadding as validated by the Node decipher finaliser: the last
byte `k` must satisfy `1 ≤ k ≤ 16` and the last `k` bytes must all equal
`k`; otherwise the decipher throws (here: `none`). -/
def unpad16 (l : List Nat) : Option (List Nat) :=
  match l.getLast? with
  | none => none
  | some k =>
    if 1 ≤ k ∧ k ≤ 16 ∧ k ≤ l.length ∧ (l.drop (l.length - k)).all (fun x => x = k) then
      some (l.take (l.length - k))
    else none

/-- CBC encryption of a list of plaintext blocks with block primitive `E`
and chaining value `prev` (initially the iv). -/
def cbcEnc (E : List Nat → List Nat) (prev : List Nat) : List (List Nat) → List (List Nat)
  | [] => []
  | p :: ps =>
    let c := E (xorB p prev)
    c :: cbcEnc E c ps

/-- CBC decryption of a list of ciphertext blocks with block primitive `D`
and chaining value `prev` (initially the iv). -/
def cbcDec (D : List Nat → List Nat) (prev : List Nat) : List (List Nat) → List (List Nat)
  | [] => []
  | c :: cs => xorB (D c) prev :: cbcDec D c cs

/-- The source `encrypt`: serialise the text to bytes, PKCS#7-pad, CBC
encrypt under the fresh iv, and return `hex(iv) + ":" + hex(ciphertext)`.
The fresh random iv is passed explicitly. -/
def encrypt (E : List Nat → List Nat) (iv text : List Nat) : List Nat :=
  bytesHex iv ++ [58] ++ bytesHex ((cbcEnc E iv (chunk16 (pad16 (toBytes text)))).flatten)

/-- The source `decrypt`: split at the first colon, hex-decode both parts,
require a 16-byte iv (createDecipheriv throws otherwise), require a
nonempty ciphertext of whole blocks (the decipher finaliser throws
otherwise), CBC decrypt and unpad.  Any of these failures is a thrown
error in the source, modelled as `none`. -/
def decrypt (D : List Nat → List Nat) (text : List Nat) : Option (List Nat) :=
  let p := breakColon text
  let iv := hexDecodeLenient p.1
  if iv.length = 16 then
    let ct := hexDecodeLenient p.2
    if ct ≠ [] ∧ ct.length % 16 = 0 then
      unpad16 ((cbcDec D iv (chunk16 ct)).flatten)
    else none
  else none

/-- A stored DynamoDB row: `id` in the clear, the three sensitive fields as
serialized cipher strings. -/
structure StorageItem where
  id : List Nat
  name : List Nat
  stock : List Nat
  price : List Nat
deriving DecidableEq, Repr

/-- Result of the record codec on one row: either the decrypted view
(`stockStr` / `priceStr` hold the decrypted decimal strings to which the
source applies the pure, total `Number(...)` coercion — no claim inspects
the resulting float, so the coercion itself is left uninterpreted), or the
row returned unchanged because decryption of one of the fields threw. -/
inductive ItemView where
  | decrypted (id name stockStr priceStr : List Nat) : ItemView
  | raw (item : StorageItem) : ItemView
deriving DecidableEq, Repr

/-- The source `decryptItem`: decrypt the three sensitive fields; if any of
them throws, catch and return the original item unchanged.  (The source's
`if (!item) return null` guard is the callers' missing-row case, handled at
each call site in this model.) -/
def decryptItem (D : List Nat → List Nat) (item : StorageItem) : ItemView :=
  match decrypt D item.name, decrypt D item.stock, decrypt D item.price with
  | some n, some s, some p => ItemView.decrypted item.id n s p
  | _, _, _ => ItemView.raw item

/-- The `name` field of a mapped item as read by the GET filter
(`item.name`): the decrypted name on success, the raw cipher string on a
row whose decryption failed. -/
def viewName : ItemView → List Nat
  | ItemView.decrypted _ n _ _ => n
  | ItemView.raw item => item.name

/-- The DynamoDB table contents. -/
abbrev Table := List StorageItem

/-- Key lookup (the table's partition key is `id`). -/
def lookupT : Table → List Nat → Option StorageItem
  | [], _ => none
  | r :: rs, i => if r.id = i then some r else lookupT rs i

/-- Remove the row with the given key. -/
def removeT : Table → List Nat → Table
  | [], _ => []
  | r :: rs, i => if r.id = i then removeT rs i else r :: removeT rs i

/-- DynamoDB `put`: overwrite the row at the item's key. -/
def putT (t : Table) (item : StorageItem) : Table := removeT t item.id ++ [item]

/-- JavaScript `String.prototype.startsWith` on character-code lists. -/
def startsWithL : List Nat → List Nat → Bool
  | _, [] => true
  | [], _ :: _ => false
  | a :: as, b :: bs => a = b && startsWithL as bs

/-- JavaScript `String.prototype.includes` on character-code lists:
the pattern occurs as a contiguous substring. -/
def containsL : List Nat → List Nat → Bool
  | hay, pat =>
    startsWithL hay pat ||
      match hay with
      | [] => false
      | _ :: rest => containsL rest pat

/-- HTTP method of the inbound event (`OTHER` covers every method none of
the four handlers match, e.g. PATCH). -/
inductive Method where
  | GET | POST | PUT | DELETE | OTHER
deriving DecidableEq, Repr

/-- `event.queryStringParameters` when present. -/
structure Query where
  id : Option (List Nat) := none
  qname : Option (List Nat) := none
deriving DecidableEq, Repr

/-- A parsed JSON request body restricted to the three updatable keys:
`name` a string when supplied, `stock` / `price` numbers when supplied
(JSON numbers modelled as integers; nothing proved here depends on
non-integer values). -/
structure Body where
  name : Option (List Nat) := none
  stock : Option Int := none
  price : Option Int := none
deriving DecidableEq, Repr

/-- The `event.body` string as the handlers see it: absent/empty (falsy),
present but not valid JSON (`JSON.parse` throws), or parsed. -/
inductive BodyField where
  | absent
  | invalid
  | parsed (b : Body)
deriving DecidableEq, Repr

/-- The inbound API-gateway event (the fields the handlers read). -/
structure Event where
  httpMethod : Method
  query : Option Query := none
  body : BodyField := BodyField.absent
deriving DecidableEq, Repr

/-- JavaScript truthiness of a possibly-absent string: `undefined` and the
empty string are falsy. -/
def truthyS : Option (List Nat) → Bool
  | none => false
  | some s => !s.isEmpty

/-- JavaScript truthiness of a possibly-absent number: `undefined` and `0`
are falsy. -/
def truthyN : Option Int → Bool
  | none => false
  | some n => n != 0

/-- JavaScript `String(n)` for an integer number value. -/
def intStr (n : Int) : List Nat := strB (toString n)

/-- One of the three updatable fields. -/
inductive UpdField where
  | name | stock | price
deriving DecidableEq, Repr

/-- The update expression built by the encrypted handler's PUT branch
(src/unnamed/part_000 lines 195-214), as the ordered list of
assignment clauses with their encrypted values: `name` is appended under a
TRUTHINESS check `if (name)`, while `stock` and `price` are appended under
explicit-presence checks `if (stock !== undefined)` / `if (price !==
undefined)` (a parsed JSON body never yields `undefined` for a present
key, so those two fire exactly on presence). -/
def buildClauses (E : List Nat → List Nat) (iv1 iv2 iv3 : List Nat) (b : Body) :
    List (UpdField × List Nat) :=
  (if truthyS b.name then [(UpdField.name, encrypt E iv1 (b.name.getD []))] else []) ++
  (if b.stock.isSome then [(UpdField.stock, encrypt E iv2 (intStr (b.stock.getD 0)))] else []) ++
  (if b.price.isSome then [(UpdField.price, encrypt E iv3 (intStr (b.price.getD 0)))] else [])

/-- The update clauses built by the unencrypted handler variant
(src/lambda/handler.ts lines 166-185): ALL THREE fields are appended under
truthiness checks `if (name)` / `if (stock)` / `if (price)`; only which
clauses fire is modelled (that variant stores the raw body values). -/
def buildClausesTruthy (b : Body) : List UpdField :=
  (if truthyS b.name then [UpdField.name] else []) ++
  (if truthyN b.stock then [UpdField.stock] else []) ++
  (if truthyN b.price then [UpdField.price] else [])

/-- Apply one `SET #field = :value` clause to a stored row. -/
def setField (r : StorageItem) : UpdField × List Nat → StorageItem
  | (UpdField.name, v) => { r with name := v }
  | (UpdField.stock, v) => { r with stock := v }
  | (UpdField.price, v) => { r with price := v }

/-- Apply an update expression's clauses to a stored row. -/
def applyClauses (r : StorageItem) (cs : List (UpdField × List Nat)) : StorageItem :=
  cs.foldl setField r

/-- The JSON bodies the handler responds with (one constructor per
`JSON.stringify` shape in the source). -/
inductive RBody where
  | errFields
  | errMissingId
  | errEmptyBody
  | errNoFields
  | errNotFound
  | errServer
  | errMethod
  | created (id name : List Nat) (stock price : Int)
  | items (vs : List ItemView)
  | updated (v : ItemView)
  | deleted (v : ItemView)
deriving DecidableEq, Repr

/-- An HTTP response: status code, whether the permissive CORS header
object (`Access-Control-Allow-Origin: *` plus allowed headers) was
attached, and the body. -/
structure Response where
  statusCode : Nat
  corsHeaders : Bool
  body : RBody
deriving DecidableEq, Repr

/-- A storage call performed by a handler. -/
inductive StorageCall where
  | put (item : StorageItem)
  | scan
  | update (id : List Nat) (clauses : List (UpdField × List Nat))
  | delete (id : List Nat)
deriving DecidableEq, Repr

/-- Result of one handler invocation: the response, the table afterwards,
and the storage calls performed (in order). -/
structure HResult where
  resp : Response
  table : Table
  calls : List StorageCall

/-- The POST branch (src/unnamed/part_000 lines 108-151): parse the body
(a missing or invalid body makes `JSON.parse` throw, caught as a 500);
reject with 400 when `!name || stock === undefined || price === undefined`;
otherwise store `{id: uuid, name: encrypt(name), stock:
encrypt(String(stock)), price: encrypt(String(price))}` and answer 201
echoing the submitted plaintext. -/
def handlePost (E : List Nat → List Nat) (uuid iv1 iv2 iv3 : List Nat)
    (ev : Event) (t : Table) : HResult :=
  match ev.body with
  | BodyField.absent => ⟨⟨500, true, RBody.errServer⟩, t, []⟩
  | BodyField.invalid => ⟨⟨500, true, RBody.errServer⟩, t, []⟩
  | BodyField.parsed b =>
    if !truthyS b.name || b.stock.isNone || b.price.isNone then
      ⟨⟨400, true, RBody.errFields⟩, t, []⟩
    else
      let newItem : StorageItem :=
        { id := uuid
          name := encrypt E iv1 (b.name.getD [])
          stock := encrypt E iv2 (intStr (b.stock.getD 0))
          price := encrypt E iv3 (intStr (b.price.getD 0)) }
      ⟨⟨201, true, RBody.created uuid (b.name.getD []) (b.stock.getD 0) (b.price.getD 0)⟩,
        putT t newItem, [StorageCall.put newItem]⟩

/-- The GET branch (src/unnamed/part_000 lines 154-183): scan the whole
table, map every row through `decryptItem`, and if a truthy `name` query
parameter was supplied, filter locally on `item.name.includes(name)`
(the array of items is always truthy in the source, so the filter fires
exactly when the query parameter is truthy). -/
def handleGet (D : List Nat → List Nat) (ev : Event) (t : Table) : HResult :=
  let q := ev.query.getD {}
  let views := t.map (decryptItem D)
  let views' :=
    if truthyS q.qname then views.filter (fun v => containsL (viewName v) (q.qname.getD []))
    else views
  ⟨⟨200, true, RBody.items views'⟩, t, [StorageCall.scan]⟩

/-- The PUT branch (src/unnamed/part_000 lines 186-243): destructuring a
missing `queryStringParameters` throws (500); falsy `id` is a 400; a falsy
body is a 400; an unparsable body throws (500); then the update expression
is built and an empty one is a 400 BEFORE any storage call; otherwise a
conditional update with `attribute_exists(id)` either fails the condition
(404, table untouched) or applies the clauses and answers 200 with the
decrypted `ALL_NEW` row. -/
def handlePut (E D : List Nat → List Nat) (iv1 iv2 iv3 : List Nat)
    (ev : Event) (t : Table) : HResult :=
  match ev.query with
  | none => ⟨⟨500, true, RBody.errServer⟩, t, []⟩
  | some q =>
    if !truthyS q.id then ⟨⟨400, true, RBody.errMissingId⟩, t, []⟩
    else
      let i := q.id.getD []
      match ev.body with
      | BodyField.absent => ⟨⟨400, true, RBody.errEmptyBody⟩, t, []⟩
      | BodyField.invalid => ⟨⟨500, true, RBody.errServer⟩, t, []⟩
      | BodyField.parsed b =>
        let cs := buildClauses E iv1 iv2 iv3 b
        if cs.isEmpty then ⟨⟨400, true, RBody.errNoFields⟩, t, []⟩
        else
          match lookupT t i with
          | none => ⟨⟨404, true, RBody.errNotFound⟩, t, [StorageCall.update i cs]⟩
          | some row =>
            let row' := applyClauses row cs
            ⟨⟨200, true, RBody.updated (decryptItem D row')⟩,
              putT t row', [StorageCall.update i cs]⟩

/-- The DELETE branch (src/unnamed/part_000 lines 246-280): destructuring a
missing `queryStringParameters` throws (500); falsy `id` is a 400; then an
unconditional delete returning `ALL_OLD` runs — no prior row is a 404,
otherwise 200 with the decrypted last stored state. -/
def handleDelete (D : List Nat → List Nat) (ev : Event) (t : Table) : HResult :=
  match ev.query with
  | none => ⟨⟨500, true, RBody.errServer⟩, t, []⟩
  | some q =>
    if !truthyS q.id then ⟨⟨400, true, RBody.errMissingId⟩, t, []⟩
    else
      let i := q.id.getD []
      let old := lookupT t i
      let t' := removeT t i
      match old with
      | none => ⟨⟨404, true, RBody.errNotFound⟩, t', [StorageCall.delete i]⟩
      | some row =>
        ⟨⟨200, true, RBody.deleted (decryptItem D row)⟩, t', [StorageCall.delete i]⟩

/-- The whole encrypted handler (src/unnamed/part_000 lines 104-286):
dispatch on `event.httpMethod`; any other method falls through to a 405
response WITHOUT the CORS header object. -/
def handle (E D : List Nat → List Nat) (uuid iv1 iv2 iv3 : List Nat)
    (ev : Event) (t : Table) : HResult :=
  match ev.httpMethod with
  | Method.POST => handlePost E uuid iv1 iv2 iv3 ev t
  | Method.GET => handleGet D ev t
  | Method.PUT => handlePut E D iv1 iv2 iv3 ev t
  | Method.DELETE => handleDelete D ev t
  | Method.OTHER => ⟨⟨405, false, RBody.errMethod⟩, t, []⟩

/-- The items of an `RBody.items` response. -/
def respItems : RBody → List ItemView
  | RBody.items vs => vs
  | _ => []

/-- A lowercase hex digit character code (the spec's at-rest character
class `[0-9a-f]`). -/
def isHexChar (c : Nat) : Bool := (48 ≤ c && c ≤ 57) || (97 ≤ c && c ≤ 102)

/-- The spec's serialized cipher form `hex(iv) + ":" + hex(ciphertext)`:
a nonempty run of lowercase hex digits, one colon, a nonempty all-hex
remainder (the regex `^[0-9a-f]+:[0-9a-f]+$`). -/
def isCF (s : List Nat) : Bool :=
  let a := s.takeWhile isHexChar
  !a.isEmpty &&
    match s.dropWhile isHexChar with
    | 58 :: b => !b.isEmpty && b.all isHexChar
    | _ => false

/-- The at-rest invariant: every stored row has its three sensitive fields
in serialized cipher form. -/
def CipherStored (t : Table) : Prop :=
  ∀ row ∈ t, isCF row.name = true ∧ isCF row.stock = true ∧ isCF row.price = true

/-- Tables reachable from the empty table through handler invocations whose
fresh ivs are well-formed 16-byte blocks (as crypto.randomBytes(16)
produces). -/
inductive Reachable (E D : List Nat → List Nat) : Table → Prop where
  | empty : Reachable E D []
  | step (uuid iv1 iv2 iv3 : List Nat) (ev : Event) (t : Table) :
      Reachable E D t → Valid16 iv1 → Valid16 iv2 → Valid16 iv3 →
      Reachable E D (handle E D uuid iv1 iv2 iv3 ev t).table

/-- A concrete invertible block function standing in for the AES-256 block
primitive in witnesses: add 1 to every byte mod 256. -/
def toyE (b : List Nat) : List Nat := b.map (fun x => (x + 1) % 256)

/-- Inverse of `toyE`: subtract 1 from every byte mod 256. -/
def toyD (b : List Nat) : List Nat := b.map (fun x => (x + 255) % 256)

/-- A concrete 16-byte iv for witnesses. -/
def iv0 : List Nat := List.replicate 16 7

/-! ## Helper lemmas: hex encoding -/

/-- Decoding inverts the hex digit encoding on nibble values. -/
theorem unhex_hexDigitChar (d : Nat) (h : d < 16) :
    unhexDigit (hexDigitChar d) = some d := by
  unfold unhexDigit hexDigitChar
  split_ifs <;> first
  | exact congrArg some (by omega)
  | omega

/-- Every encoded hex digit is in the lowercase hex character class. -/
theorem isHexChar_hexDigitChar (d : Nat) (h : d < 16) :
    isHexChar (hexDigitChar d) = true := by
  unfold isHexChar hexDigitChar
  split_ifs with h10 <;>
    simp only [Bool.or_eq_true, Bool.and_eq_true, decide_eq_true_eq]
  · exact Or.inl ⟨by omega, by omega⟩
  · exact Or.inr ⟨by omega, by omega⟩

/-- Both characters of an encoded byte are hex characters. -/
theorem byteHex_all_hex (n : Nat) : ∀ c ∈ byteHex n, isHexChar c = true := by
  intro c hc
  simp only [byteHex, List.mem_cons, List.not_mem_nil, or_false] at hc
  rcases hc with rfl | rfl
  · exact isHexChar_hexDigitChar _ (by omega)
  · exact isHexChar_hexDigitChar _ (by omega)

/-- Every character of a hex-encoded byte list is a hex character. -/
theorem bytesHex_all_hex (l : List Nat) : ∀ c ∈ bytesHex l, isHexChar c = true := by
  intro c hc
  unfold bytesHex at hc
  rcases List.mem_flatten.1 hc with ⟨s, hs, hcs⟩
  rcases List.mem_map.1 hs with ⟨n, _, rfl⟩
  exact byteHex_all_hex n c hcs

/-- A hex character is never the colon (code 58). -/
theorem isHexChar_ne_colon {c : Nat} (h : isHexChar c = true) : c ≠ 58 := by
  unfold isHexChar at h
  intro hc
  subst hc
  simp at h

/-- Hex decoding inverts hex encoding on byte lists. -/
theorem hexDecodeLenient_bytesHex (l : List Nat) (h : ∀ x ∈ l, x < 256) :
    hexDecodeLenient (bytesHex l) = l := by
  induction l with
  | nil => rfl
  | cons n t ih =>
    have hn : n < 256 := h n (by simp)
    have ht : ∀ x ∈ t, x < 256 := fun x hx => h x (by simp [hx])
    have hmod : n % 256 = n := Nat.mod_eq_of_lt hn
    show hexDecodeLenient (byteHex n ++ bytesHex t) = n :: t
    unfold byteHex
    show hexDecodeLenient
        (hexDigitChar (n % 256 / 16) :: hexDigitChar (n % 16) :: bytesHex t) = n :: t
    unfold hexDecodeLenient
    rw [unhex_hexDigitChar (n % 256 / 16) (by omega), unhex_hexDigitChar (n % 16) (by omega)]
    simp only [ih ht]
    congr 1
    omega

/-! ## Helper lemmas: the colon split -/

/-- Splitting at the first colon recovers the two parts of the wire form
when the left part contains no colon. -/
theorem breakColon_append (a b : List Nat) (h : ∀ c ∈ a, c ≠ 58) :
    breakColon (a ++ 58 :: b) = (a, b) := by
  induction a with
  | nil => simp [breakColon]
  | cons c t ih =>
    have hc : c ≠ 58 := h c (by simp)
    have ht : ∀ x ∈ t, x ≠ 58 := fun x hx => h x (by simp [hx])
    simp [breakColon, hc, ih ht]

/-! ## Helper lemmas: padding -/

/-- Padded data is a whole number of blocks. -/
theorem pad16_mod (l : List Nat) : (pad16 l).length % 16 = 0 := by
  unfold pad16
  simp only [List.length_append, List.length_replicate]
  omega

/-- Padding always appends at least one byte. -/
theorem pad16_ne_nil (l : List Nat) : pad16 l ≠ [] := by
  unfold pad16
  intro h
  have := congrArg List.length h
  simp only [List.length_append, List.length_replicate, List.length_nil] at this
  omega

/-- Padding preserves bytehood (padding bytes are at most 16). -/
theorem pad16_lt (l : List Nat) (h : ∀ x ∈ l, x < 256) :
    ∀ x ∈ pad16 l, x < 256 := by
  intro x hx
  unfold pad16 at hx
  rcases List.mem_append.1 hx with h1 | h1
  · exact h x h1
  · have := List.eq_of_mem_replicate h1
    omega

/-- PKCS#7 unpadding inverts PKCS#7 padding. -/
theorem unpad16_pad16 (l : List Nat) : unpad16 (pad16 l) = some l := by
  obtain ⟨k, hkdef⟩ : ∃ k, 16 - l.length % 16 = k := ⟨_, rfl⟩
  have hk1 : 1 ≤ k := by omega
  have hk16 : k ≤ 16 := by omega
  have hrep : List.replicate k k ≠ ([] : List Nat) := by
    intro h
    have := congrArg List.length h
    simp only [List.length_replicate, List.length_nil] at this
    omega
  have hlast : (l ++ List.replicate k k).getLast? = some k := by
    rw [List.getLast?_append_of_ne_nil _ hrep, List.getLast?_replicate]
    split_ifs with h
    · omega
    · rfl
  have hlen : (l ++ List.replicate k k).length = l.length + k := by
    simp [List.length_append, List.length_replicate]
  have hsub : l.length + k - k = l.length := by omega
  have hdrop : (l ++ List.replicate k k).drop ((l ++ List.replicate k k).length - k)
      = List.replicate k k := by
    rw [hlen, hsub, List.drop_left]
  have htake : (l ++ List.replicate k k).take ((l ++ List.replicate k k).length - k) = l := by
    rw [hlen, hsub, List.take_left]
  have hall : (List.replicate k k).all (fun x => decide (x = k)) = true := by
    simp only [List.all_eq_true, decide_eq_true_eq]
    intro x hx
    exact List.eq_of_mem_replicate hx
  unfold unpad16 pad16
  rw [hkdef]
  simp only [hlast]
  rw [if_pos]
  · rw [htake]
  · refine ⟨hk1, hk16, ?_, ?_⟩
    · rw [hlen]; omega
    · rw [hdrop]; exact hall

/-! ## Helper lemmas: blocks, xor, CBC -/

/-- Chunking then flattening restores the byte list. -/
theorem chunk16_flatten (l : List Nat) : (chunk16 l).flatten = l := by
  rw [chunk16]
  split
  · simp [*]
  · simp only [List.flatten_cons, chunk16_flatten (l.drop 16), List.take_append_drop]
termination_by l.length
decreasing_by
  rename_i h
  have : 0 < l.length := List.length_pos.mpr h
  simp only [List.length_drop]
  omega

/-- Chunking a full block followed by a remainder peels off the block. -/
theorem chunk16_block (a r : List Nat) (h : a.length = 16) :
    chunk16 (a ++ r) = a :: chunk16 r := by
  rw [chunk16]
  split
  · rename_i hnil
    exfalso
    have := congrArg List.length hnil
    simp only [List.length_append, List.length_nil, h] at this
    omega
  · congr 1
    · rw [← h, List.take_left]
    · congr 1
      rw [← h, List.drop_left]

/-- Chunking the flattening of a list of full blocks restores the list. -/
theorem chunk16_flatten_blocks (bs : List (List Nat)) (h : ∀ b ∈ bs, b.length = 16) :
    chunk16 bs.flatten = bs := by
  induction bs with
  | nil => rw [chunk16]; simp
  | cons b t ih =>
    rw [List.flatten_cons, chunk16_block b t.flatten (h b (by simp))]
    rw [ih (fun x hx => h x (by simp [hx]))]

/-- Every chunk of a whole-block byte list is a well-formed block. -/
theorem chunk16_valid (l : List Nat) (hm : l.length % 16 = 0) (hb : ∀ x ∈ l, x < 256) :
    ∀ b ∈ chunk16 l, Valid16 b := by
  intro b hbmem
  rw [chunk16] at hbmem
  split at hbmem
  · simp at hbmem
  · rename_i hnil
    have hpos : 0 < l.length := List.length_pos.mpr hnil
    have h16 : 16 ≤ l.length := by omega
    rcases List.mem_cons.1 hbmem with rfl | hmem
    · constructor
      · simp only [List.length_take]
        omega
      · intro x hx
        exact hb x (List.mem_of_mem_take hx)
    · have hm' : (l.drop 16).length % 16 = 0 := by
        simp only [List.length_drop]
        omega
      have hb' : ∀ x ∈ l.drop 16, x < 256 := fun x hx => hb x (List.mem_of_mem_drop hx)
      exact chunk16_valid (l.drop 16) hm' hb' b hmem
termination_by l.length
decreasing_by
  simp only [List.length_drop]
  omega

/-- Xor of two equal-length blocks, xored again with the second, is the
first. -/
theorem xorB_xorB (a b : List Nat) (h : a.length = b.length) :
    xorB (xorB a b) b = a := by
  induction a generalizing b with
  | nil => cases b <;> simp [xorB]
  | cons x xs ih =>
    cases b with
    | nil => simp at h
    | cons y ys =>
      simp only [xorB, List.zipWith_cons_cons]
      rw [show List.zipWith Nat.xor (List.zipWith Nat.xor xs ys) ys = xs from
        ih ys (by simpa using h)]
      simp only [List.cons.injEq, and_true]
      exact Nat.xor_cancel_right y x

/-- Xor of two well-formed blocks is a well-formed block. -/
theorem xorB_valid {a b : List Nat} (ha : Valid16 a) (hb : Valid16 b) :
    Valid16 (xorB a b) := by
  constructor
  · simp only [xorB, List.length_zipWith, ha.1, hb.1]
    simp
  · have key : ∀ (u v : List Nat), (∀ x ∈ u, x < 256) → (∀ x ∈ v, x < 256) →
        ∀ x ∈ xorB u v, x < 256 := by
      intro u
      induction u with
      | nil => intro v _ _ x hx; simp [xorB] at hx
      | cons y t ih =>
        intro v hu hv x hx
        cases v with
        | nil => simp [xorB] at hx
        | cons z s =>
          simp only [xorB, List.zipWith_cons_cons, List.mem_cons] at hx
          rcases hx with rfl | hx
          · have hy : y < 256 := hu y (by simp)
            have hz : z < 256 := hv z (by simp)
            have := Nat.xor_lt_two_pow (n := 8) hy hz
            simpa using this
          · exact ih s (fun w hw => hu w (by simp [hw]))
              (fun w hw => hv w (by simp [hw])) x hx
    exact key a b ha.2 hb.2

/-- Every CBC ciphertext block is well-formed when the block primitive
preserves well-formedness. -/
theorem cbcEnc_valid (E : List Nat → List Nat) (hE : ∀ b, Valid16 b → Valid16 (E b)) :
    ∀ (ps : List (List Nat)) (prev : List Nat), (∀ p ∈ ps, Valid16 p) → Valid16 prev →
      ∀ c ∈ cbcEnc E prev ps, Valid16 c := by
  intro ps
  induction ps with
  | nil => intro prev _ _ c hc; simp [cbcEnc] at hc
  | cons p t ih =>
    intro prev hps hprev c hc
    have hcv : Valid16 (E (xorB p prev)) :=
      hE _ (xorB_valid (hps p (by simp)) hprev)
    simp only [cbcEnc, List.mem_cons] at hc
    rcases hc with rfl | hc
    · exact hcv
    · exact ih _ (fun q hq => hps q (by simp [hq])) hcv c hc

/-- CBC decryption inverts CBC encryption blockwise. -/
theorem cbcDec_cbcEnc (E D : List Nat → List Nat)
    (hE : ∀ b, Valid16 b → Valid16 (E b)) (hD : ∀ b, Valid16 b → D (E b) = b) :
    ∀ (ps : List (List Nat)) (prev : List Nat), (∀ p ∈ ps, Valid16 p) → Valid16 prev →
      cbcDec D prev (cbcEnc E prev ps) = ps := by
  intro ps
  induction ps with
  | nil => intro prev _ _; rfl
  | cons p t ih =>
    intro prev hps hprev
    have hpv : Valid16 p := hps p (by simp)
    have hxv : Valid16 (xorB p prev) := xorB_valid hpv hprev
    have hcv : Valid16 (E (xorB p prev)) := hE _ hxv
    simp only [cbcEnc, cbcDec, List.cons.injEq]
    refine ⟨?_, ?_⟩
    · rw [hD _ hxv, xorB_xorB p prev (by rw [hpv.1, hprev.1])]
    · exact ih _ (fun q hq => hps q (by simp [hq])) hcv

/-- Flattened full blocks have whole-block length. -/
theorem flatten16_mod (bs : List (List Nat)) (h : ∀ b ∈ bs, b.length = 16) :
    bs.flatten.length % 16 = 0 := by
  induction bs with
  | nil => simp
  | cons b t ih =>
    simp only [List.flatten_cons, List.length_append, h b (by simp)]
    have := ih (fun x hx => h x (by simp [hx]))
    omega

/-- Every byte of flattened well-formed blocks is a byte. -/
theorem flatten_lt (bs : List (List Nat)) (h : ∀ b ∈ bs, ∀ x ∈ b, x < 256) :
    ∀ x ∈ bs.flatten, x < 256 := by
  intro x hx
  rcases List.mem_flatten.1 hx with ⟨b, hb, hxb⟩
  exact h b hb x hxb

/-- Byte serialisation is the identity on byte strings. -/
theorem toBytes_eq_self (s : List Nat) (h : ∀ x ∈ s, x < 256) : toBytes s = s := by
  unfold toBytes
  induction s with
  | nil => rfl
  | cons c t ih =>
    simp only [List.map_cons]
    rw [Nat.mod_eq_of_lt (h c (by simp)), ih (fun x hx => h x (by simp [hx]))]

/-- Chunking a nonempty byte list yields at least one block. -/
theorem chunk16_ne_nil (l : List Nat) (h : l ≠ []) : chunk16 l ≠ [] := by
  rw [chunk16]
  split
  · exact absurd (by assumption) h
  · simp

/-- CBC encryption produces one ciphertext block per plaintext block. -/
theorem cbcEnc_length (E : List Nat → List Nat) :
    ∀ (ps : List (List Nat)) (prev : List Nat), (cbcEnc E prev ps).length = ps.length := by
  intro ps
  induction ps with
  | nil => intro prev; rfl
  | cons p t ih => intro prev; simp only [cbcEnc, List.length_cons, ih]

/-- Claim C1: decrypting the result of encrypting any (byte) string with
the same secret key returns the string.  The AES-256 block primitive is
abstract: `E` preserves well-formed 16-byte blocks and `D` inverts it;
`encrypt` draws the fresh 16-byte iv `iv`, serialises as
`hex(iv) + ":" + hex(ciphertext)`, and `decrypt` splits on the first
colon, hex-decodes both parts, and decrypts. -/
theorem spec_c1_round_trip (E D : List Nat → List Nat) (iv s : List Nat)
    (hE : ∀ b, Valid16 b → Valid16 (E b))
    (hD : ∀ b, Valid16 b → D (E b) = b)
    (hiv : Valid16 iv) (hs : ∀ x ∈ s, x < 256) :
    decrypt D (encrypt E iv s) = some s := by
  have hPv : ∀ p ∈ chunk16 (pad16 s), Valid16 p :=
    chunk16_valid (pad16 s) (pad16_mod s) (pad16_lt s hs)
  have hCv : ∀ c ∈ cbcEnc E iv (chunk16 (pad16 s)), Valid16 c :=
    cbcEnc_valid E hE (chunk16 (pad16 s)) iv hPv hiv
  have hClen : ∀ c ∈ cbcEnc E iv (chunk16 (pad16 s)), c.length = 16 :=
    fun c hc => (hCv c hc).1
  have hCb : ∀ c ∈ cbcEnc E iv (chunk16 (pad16 s)), ∀ x ∈ c, x < 256 :=
    fun c hc => (hCv c hc).2
  have hsplit : breakColon (bytesHex iv ++ [58] ++
      bytesHex (cbcEnc E iv (chunk16 (pad16 s))).flatten)
      = (bytesHex iv, bytesHex (cbcEnc E iv (chunk16 (pad16 s))).flatten) := by
    rw [List.append_assoc]
    exact breakColon_append _ _ (fun c hc => isHexChar_ne_colon (bytesHex_all_hex iv c hc))
  have h1 : hexDecodeLenient (bytesHex iv) = iv := hexDecodeLenient_bytesHex iv hiv.2
  have h2 : hexDecodeLenient (bytesHex (cbcEnc E iv (chunk16 (pad16 s))).flatten)
      = (cbcEnc E iv (chunk16 (pad16 s))).flatten :=
    hexDecodeLenient_bytesHex _ (flatten_lt _ hCb)
  have h3 : (cbcEnc E iv (chunk16 (pad16 s))).flatten ≠ [] := by
    have hne : cbcEnc E iv (chunk16 (pad16 s)) ≠ [] := by
      intro h
      have := congrArg List.length h
      rw [cbcEnc_length] at this
      exact chunk16_ne_nil (pad16 s) (pad16_ne_nil s) (List.length_eq_zero.1 this)
    cases hcc : cbcEnc E iv (chunk16 (pad16 s)) with
    | nil => exact absurd hcc hne
    | cons c rest =>
      have hc16 : c.length = 16 := hClen c (by rw [hcc]; simp)
      simp only [List.flatten_cons]
      intro h
      have := congrArg List.length h
      simp only [List.length_append, hc16, List.length_nil] at this
      omega
  have h4 : (cbcEnc E iv (chunk16 (pad16 s))).flatten.length % 16 = 0 :=
    flatten16_mod _ hClen
  have h5 : chunk16 (cbcEnc E iv (chunk16 (pad16 s))).flatten
      = cbcEnc E iv (chunk16 (pad16 s)) :=
    chunk16_flatten_blocks _ hClen
  have h6 : cbcDec D iv (cbcEnc E iv (chunk16 (pad16 s))) = chunk16 (pad16 s) :=
    cbcDec_cbcEnc E D hE hD _ iv hPv hiv
  have h7 : (chunk16 (pad16 s)).flatten = pad16 s := chunk16_flatten (pad16 s)
  unfold encrypt decrypt
  rw [toBytes_eq_self s hs]
  simp only [hsplit, h1, h2, hiv.1, if_true, h5, h6, h7, unpad16_pad16]
  rw [if_pos ⟨h3, h4⟩]

/-- The toy block function preserves well-formed blocks. -/
theorem toyE_valid16 : ∀ b, Valid16 b → Valid16 (toyE b) := by
  intro b hb
  constructor
  · simp [toyE, hb.1]
  · intro x hx
    rcases List.mem_map.1 hx with ⟨y, _, rfl⟩
    exact Nat.mod_lt _ (by omega)

/-- The toy block function is inverted by its companion on byte lists. -/
theorem toyD_toyE_bytes (b : List Nat) (h : ∀ x ∈ b, x < 256) : toyD (toyE b) = b := by
  induction b with
  | nil => rfl
  | cons x t ih =>
    have hx : x < 256 := h x (by simp)
    simp only [toyE, toyD, List.map_cons, List.map_map] at ih ⊢
    rw [List.cons.injEq]
    refine ⟨by omega, ih (fun y hy => h y (by simp [hy]))⟩

/-- The toy block function is inverted by its companion on blocks. -/
theorem toyD_toyE : ∀ b, Valid16 b → toyD (toyE b) = b :=
  fun b hb => toyD_toyE_bytes b hb.2

/-- The concrete witness iv is a well-formed block. -/
theorem iv0_valid16 : Valid16 iv0 := by
  constructor
  · rfl
  · intro x hx
    have := List.eq_of_mem_replicate hx
    omega

/-- Witness for C1: the round trip evaluated at the concrete block cipher
and the concrete string "hello". -/
theorem spec_c1_round_trip_witness :
    decrypt toyD (encrypt toyE iv0 (strB "hello")) = some (strB "hello") :=
  spec_c1_round_trip toyE toyD iv0 (strB "hello") toyE_valid16 toyD_toyE iv0_valid16
    (by decide)

/-- Claim C5: if decryption of any of the three sensitive fields fails,
`decryptItem` returns the stored row exactly unchanged — no exception, no
partially decrypted field. -/
theorem spec_c5_decrypt_failure_returns_raw (D : List Nat → List Nat) (item : StorageItem)
    (h : decrypt D item.name = none ∨ decrypt D item.stock = none ∨
      decrypt D item.price = none) :
    decryptItem D item = ItemView.raw item := by
  unfold decryptItem
  rcases h with h | h | h
  · rw [h]
  · rw [h]
    cases decrypt D item.name <;> rfl
  · rw [h]
    cases decrypt D item.name <;> cases decrypt D item.stock <;> rfl

/-- Witness for C5: a row whose `name` is not in cipher form (no parsable
16-byte iv before a colon) is returned unchanged. -/
theorem spec_c5_witness :
    decryptItem toyD ⟨strB "id-1", strB "not-a-cipher", strB "x", strB "y"⟩
      = ItemView.raw ⟨strB "id-1", strB "not-a-cipher", strB "x", strB "y"⟩ :=
  spec_c5_decrypt_failure_returns_raw toyD _ (Or.inl (by decide))

/-- Claim C3 (code bug, evaluated at the failing inputs): the encrypted
handler's update builder appends NO clause for an explicitly supplied
empty-string `name` (its `if (name)` check is truthiness, so the whole
update then fails as NoFieldsToUpdate), and the unencrypted variant's
builder appends NO clause for explicitly supplied `stock: 0` / `price: 0`
(its checks are truthiness for all three fields) — both contradicting the
specified explicit-presence contract. -/
theorem spec_c3_truthiness_drops_falsy_updates :
    buildClauses toyE iv0 iv0 iv0 { name := some [] } = [] ∧
    buildClausesTruthy { stock := some 0, price := some 0 } = [] :=
  ⟨rfl, rfl⟩

/-- Counterexample for C4: a Create body that supplies all three keys —
`name: ""`, `stock: 0`, `price: 7` — is rejected with 400, although the
claim's explicit-presence semantics would accept it (and in particular it
is a body with `stock` equal to 0 that does NOT succeed). -/
theorem spec_c4_counterexample :
    (handle toyE toyD (strB "u1") iv0 iv0 iv0
      ⟨Method.POST, none, BodyField.parsed { name := some [], stock := some 0, price := some 7 }⟩
      []).resp.statusCode = 400 :=
  rfl

/-- Claim C4 as amended: Create validation rejects with 400 exactly when
`name` is missing or falsy (empty) or `stock` is missing or `price` is
missing, and answers 201 otherwise — explicit-presence semantics for
`stock` and `price` (0 accepted), truthiness for `name`. -/
theorem spec_c4_create_validation (E D : List Nat → List Nat)
    (uuid iv1 iv2 iv3 : List Nat) (q : Option Query) (b : Body) (t : Table) :
    (handle E D uuid iv1 iv2 iv3 ⟨Method.POST, q, BodyField.parsed b⟩ t).resp.statusCode
      = if truthyS b.name = false ∨ b.stock = none ∨ b.price = none then 400 else 201 := by
  by_cases hP : truthyS b.name = false ∨ b.stock = none ∨ b.price = none
  · have hcond : (!truthyS b.name || b.stock.isNone || b.price.isNone) = true := by
      rcases hP with h | h | h <;> simp [h]
    simp only [handle, handlePost, hcond, if_true, if_pos hP]
  · have hcond : (!truthyS b.name || b.stock.isNone || b.price.isNone) = false := by
      push_neg at hP
      simp only [Bool.or_eq_false_iff, Bool.not_eq_false', Option.isNone_eq_false_iff]
      refine ⟨⟨?_, ?_⟩, ?_⟩
      · cases hb : truthyS b.name
        · exact absurd hb hP.1
        · rfl
      · exact Option.ne_none_iff_isSome.1 hP.2.1
      · exact Option.ne_none_iff_isSome.1 hP.2.2
    simp only [handle, handlePost, hcond, Bool.false_eq_true, if_false, if_neg hP]

/-- A nonempty id string is truthy. -/
theorem truthyS_some {i : List Nat} (h : i ≠ []) : truthyS (some i) = true := by
  unfold truthyS
  cases i with
  | nil => exact absurd rfl h
  | cons c t => rfl

/-- Claim C6: Update on an id absent from the table fails with 404 and
leaves the table unchanged — the conditional `attribute_exists(id)` update
call is attempted and refused, so no record is created or modified. -/
theorem spec_c6_update_missing_id (E D : List Nat → List Nat)
    (uuid iv1 iv2 iv3 : List Nat) (qn : Option (List Nat)) (i : List Nat) (b : Body)
    (t : Table) (hi : i ≠ []) (hlook : lookupT t i = none)
    (hcs : buildClauses E iv1 iv2 iv3 b ≠ []) :
    handle E D uuid iv1 iv2 iv3
      ⟨Method.PUT, some ⟨some i, qn⟩, BodyField.parsed b⟩ t
      = ⟨⟨404, true, RBody.errNotFound⟩, t,
          [StorageCall.update i (buildClauses E iv1 iv2 iv3 b)]⟩ := by
  have hne : (buildClauses E iv1 iv2 iv3 b).isEmpty = false := by
    cases hc : buildClauses E iv1 iv2 iv3 b with
    | nil => exact absurd hc hcs
    | cons x l => rfl
  simp only [handle, handlePut, truthyS_some hi, Bool.not_true, Bool.false_eq_true,
    if_false, Option.getD_some, hne, hlook]

/-- Witness for C6: updating a concrete missing id on the empty table. -/
theorem spec_c6_witness :
    handle toyE toyD (strB "u1") iv0 iv0 iv0
      ⟨Method.PUT, some ⟨some (strB "9"), none⟩,
        BodyField.parsed { stock := some 5 }⟩ []
      = ⟨⟨404, true, RBody.errNotFound⟩, [],
          [StorageCall.update (strB "9")
            (buildClauses toyE iv0 iv0 iv0 { stock := some 5 })]⟩ :=
  spec_c6_update_missing_id toyE toyD (strB "u1") iv0 iv0 iv0 none (strB "9")
    { stock := some 5 } [] (by decide) rfl (by decide)

/-- Claim C7: an Update whose body supplies none of the updatable fields
fails with 400 NoFieldsToUpdate, performs no storage call, and leaves the
table unchanged. -/
theorem spec_c7_empty_update (E D : List Nat → List Nat)
    (uuid iv1 iv2 iv3 : List Nat) (qn : Option (List Nat)) (i : List Nat) (b : Body)
    (t : Table) (hi : i ≠ [])
    (hname : b.name = none) (hstock : b.stock = none) (hprice : b.price = none) :
    handle E D uuid iv1 iv2 iv3
      ⟨Method.PUT, some ⟨some i, qn⟩, BodyField.parsed b⟩ t
      = ⟨⟨400, true, RBody.errNoFields⟩, t, []⟩ := by
  have hcs : buildClauses E iv1 iv2 iv3 b = [] := by
    simp [buildClauses, hname, hstock, hprice, truthyS]
  simp only [handle, handlePut, truthyS_some hi, Bool.not_true, Bool.false_eq_true,
    if_false, Option.getD_some, hcs, List.isEmpty_nil, if_true]

/-- Witness for C7: an update with an empty body field set on a one-row
table. -/
theorem spec_c7_witness :
    handle toyE toyD (strB "u1") iv0 iv0 iv0
      ⟨Method.PUT, some ⟨some (strB "9"), none⟩, BodyField.parsed {}⟩
      [⟨strB "9", strB "a", strB "b", strB "c"⟩]
      = ⟨⟨400, true, RBody.errNoFields⟩, [⟨strB "9", strB "a", strB "b", strB "c"⟩], []⟩ :=
  spec_c7_empty_update toyE toyD (strB "u1") iv0 iv0 iv0 none (strB "9") {}
    [⟨strB "9", strB "a", strB "b", strB "c"⟩] (by decide) rfl rfl rfl

/-- After removing a key it can no longer be looked up. -/
theorem lookupT_removeT (t : Table) (i : List Nat) : lookupT (removeT t i) i = none := by
  induction t with
  | nil => rfl
  | cons r rs ih =>
    unfold removeT
    split_ifs with h
    · exact ih
    · unfold lookupT
      rw [if_neg h]
      exact ih

/-- Removing an absent key leaves the table unchanged. -/
theorem removeT_lookup_none (t : Table) (i : List Nat) (h : lookupT t i = none) :
    removeT t i = t := by
  induction t with
  | nil => rfl
  | cons r rs ih =>
    unfold lookupT at h
    unfold removeT
    split_ifs with hr
    · rw [if_pos hr] at h
      exact absurd h (by simp)
    · rw [if_neg hr] at h
      rw [ih h]

/-- Claim C8: deleting a present id answers 200 with the last stored state
decrypted via the codec and makes the id absent; a second Delete of the
same id then fails with 404 (and leaves the table as it was). -/
theorem spec_c8_delete_then_notfound (E D : List Nat → List Nat)
    (uuid iv1 iv2 iv3 : List Nat) (qn : Option (List Nat)) (i : List Nat)
    (t : Table) (row : StorageItem) (hi : i ≠ []) (hlook : lookupT t i = some row) :
    (handle E D uuid iv1 iv2 iv3 ⟨Method.DELETE, some ⟨some i, qn⟩, BodyField.absent⟩ t).resp
        = ⟨200, true, RBody.deleted (decryptItem D row)⟩ ∧
    (handle E D uuid iv1 iv2 iv3 ⟨Method.DELETE, some ⟨some i, qn⟩, BodyField.absent⟩ t).table
        = removeT t i ∧
    lookupT (removeT t i) i = none ∧
    handle E D uuid iv1 iv2 iv3 ⟨Method.DELETE, some ⟨some i, qn⟩, BodyField.absent⟩
        (removeT t i)
      = ⟨⟨404, true, RBody.errNotFound⟩, removeT t i, [StorageCall.delete i]⟩ := by
  have h2 : lookupT (removeT t i) i = none := lookupT_removeT t i
  refine ⟨?_, ?_, h2, ?_⟩
  · simp only [handle, handleDelete, truthyS_some hi, Bool.not_true, Bool.false_eq_true,
      if_false, Option.getD_some, hlook]
  · simp only [handle, handleDelete, truthyS_some hi, Bool.not_true, Bool.false_eq_true,
      if_false, Option.getD_some, hlook]
  · simp only [handle, handleDelete, truthyS_some hi, Bool.not_true, Bool.false_eq_true,
      if_false, Option.getD_some, h2, removeT_lookup_none (removeT t i) i h2]

/-- Witness for C8: deleting a concrete row from a one-row table, then
deleting it again. -/
theorem spec_c8_witness :
    (handle toyE toyD (strB "u1") iv0 iv0 iv0
        ⟨Method.DELETE, some ⟨some (strB "9"), none⟩, BodyField.absent⟩
        [⟨strB "9", strB "a", strB "b", strB "c"⟩]).resp
        = ⟨200, true, RBody.deleted (decryptItem toyD ⟨strB "9", strB "a", strB "b", strB "c"⟩)⟩ ∧
    (handle toyE toyD (strB "u1") iv0 iv0 iv0
        ⟨Method.DELETE, some ⟨some (strB "9"), none⟩, BodyField.absent⟩
        [⟨strB "9", strB "a", strB "b", strB "c"⟩]).table
        = removeT [⟨strB "9", strB "a", strB "b", strB "c"⟩] (strB "9") ∧
    lookupT (removeT [⟨strB "9", strB "a", strB "b", strB "c"⟩] (strB "9")) (strB "9") = none ∧
    handle toyE toyD (strB "u1") iv0 iv0 iv0
        ⟨Method.DELETE, some ⟨some (strB "9"), none⟩, BodyField.absent⟩
        (removeT [⟨strB "9", strB "a", strB "b", strB "c"⟩] (strB "9"))
      = ⟨⟨404, true, RBody.errNotFound⟩,
          removeT [⟨strB "9", strB "a", strB "b", strB "c"⟩] (strB "9"),
          [StorageCall.delete (strB "9")]⟩ :=
  spec_c8_delete_then_notfound toyE toyD (strB "u1") iv0 iv0 iv0 none (strB "9")
    [⟨strB "9", strB "a", strB "b", strB "c"⟩] ⟨strB "9", strB "a", strB "b", strB "c"⟩
    (by decide) (by decide)

/-- Claim C10: with a name filter, the GET handler applies the substring
test to whatever sits in each mapped item's `name` — so a row whose
decryption failed (returned raw) is included in the filtered result
exactly when its raw `hex(iv):hex(ciphertext)` name string contains the
filter substring. -/
theorem spec_c10_filter_raw_rows (E D : List Nat → List Nat)
    (uuid iv1 iv2 iv3 : List Nat) (t : Table) (n : List Nat) (row : StorageItem)
    (hn : n ≠ []) (hrow : row ∈ t) (hfail : decryptItem D row = ItemView.raw row) :
    ItemView.raw row ∈ respItems
        (handle E D uuid iv1 iv2 iv3
          ⟨Method.GET, some ⟨none, some n⟩, BodyField.absent⟩ t).resp.body
      ↔ containsL row.name n = true := by
  simp only [handle, handleGet, Option.getD_some, truthyS_some hn, if_true, respItems]
  constructor
  · intro hmem
    have := (List.mem_filter.1 hmem).2
    simpa [viewName] using this
  · intro hc
    refine List.mem_filter.2 ⟨List.mem_map.2 ⟨row, hrow, hfail⟩, ?_⟩
    simpa [viewName] using hc

/-- Witness for C10: a table holding one undecryptable row whose raw name
is "zzzz"; the filter "zz" is tested against that raw string, so the raw
row is included. -/
theorem spec_c10_witness :
    ItemView.raw ⟨strB "9", strB "zzzz", strB "b", strB "c"⟩ ∈ respItems
        (handle toyE toyD (strB "u1") iv0 iv0 iv0
          ⟨Method.GET, some ⟨none, some (strB "zz")⟩, BodyField.absent⟩
          [⟨strB "9", strB "zzzz", strB "b", strB "c"⟩]).resp.body
      ↔ containsL (strB "zzzz") (strB "zz") = true :=
  spec_c10_filter_raw_rows toyE toyD (strB "u1") iv0 iv0 iv0
    [⟨strB "9", strB "zzzz", strB "b", strB "c"⟩] (strB "zz")
    ⟨strB "9", strB "zzzz", strB "b", strB "c"⟩
    (by decide) (by decide) (by decide)

/-- Counterexample for C9: the unsupported-method fallthrough (e.g. PATCH)
returns 405 with NO cross-origin headers attached, so not every response
carries them. -/
theorem spec_c9_counterexample :
    (handle toyE toyD (strB "u1") iv0 iv0 iv0
      ⟨Method.OTHER, none, BodyField.absent⟩ []).resp
      = ⟨405, false, RBody.errMethod⟩ :=
  rfl

/-- Claim C9 as amended: every response of the four supported method
handlers (every operation, every outcome) carries the permissive
cross-origin headers; only the unsupported-method 405 fallthrough response
lacks them. -/
theorem spec_c9_cors_headers (E D : List Nat → List Nat)
    (uuid iv1 iv2 iv3 : List Nat) (ev : Event) (t : Table) :
    (handle E D uuid iv1 iv2 iv3 ev t).resp.corsHeaders
      = match ev.httpMethod with
        | Method.OTHER => false
        | _ => true := by
  obtain ⟨m, q, bd⟩ := ev
  cases m <;>
    simp only [handle, handlePost, handleGet, handlePut, handleDelete] <;>
    cases q <;> cases bd <;> (repeat' split) <;> rfl

/-- Serialised bytes are in range. -/
theorem toBytes_lt (s : List Nat) : ∀ x ∈ toBytes s, x < 256 := by
  intro x hx
  rcases List.mem_map.1 hx with ⟨y, _, rfl⟩
  exact Nat.mod_lt _ (by omega)

/-- Hex encoding of a nonempty byte list is nonempty. -/
theorem bytesHex_ne_nil (l : List Nat) (h : l ≠ []) : bytesHex l ≠ [] := by
  cases l with
  | nil => exact absurd rfl h
  | cons y t =>
    show byteHex y ++ bytesHex t ≠ []
    unfold byteHex
    simp

/-- CBC encryption of a nonempty block list is nonempty. -/
theorem cbcEnc_ne_nil (E : List Nat → List Nat) (prev : List Nat)
    (ps : List (List Nat)) (h : ps ≠ []) : cbcEnc E prev ps ≠ [] := by
  intro hc
  have := congrArg List.length hc
  rw [cbcEnc_length] at this
  exact h (List.length_eq_zero.1 this)

/-- Flattening a nonempty list of full blocks is nonempty. -/
theorem flatten_blocks_ne_nil (bs : List (List Nat)) (hbs : bs ≠ [])
    (h : ∀ b ∈ bs, b.length = 16) : bs.flatten ≠ [] := by
  cases bs with
  | nil => exact absurd rfl hbs
  | cons b t =>
    simp only [List.flatten_cons]
    intro hflat
    have := congrArg List.length hflat
    simp only [List.length_append, h b (by simp), List.length_nil] at this
    omega

/-- takeWhile and dropWhile on an all-satisfying run followed by a
breaking element. -/
theorem takeWhile_dropWhile_break (p : Nat → Bool) (a : List Nat) (x : Nat) (b : List Nat)
    (h1 : ∀ c ∈ a, p c = true) (h2 : p x = false) :
    (a ++ x :: b).takeWhile p = a ∧ (a ++ x :: b).dropWhile p = x :: b := by
  induction a with
  | nil => simp [List.takeWhile, List.dropWhile, h2]
  | cons c t ih =>
    have hc : p c = true := h1 c (by simp)
    have ht := ih (fun y hy => h1 y (by simp [hy]))
    simp only [List.cons_append, List.takeWhile_cons, List.dropWhile_cons, hc, if_true,
      ht.1, ht.2]
    simp

/-- Every output of `encrypt` is in serialized cipher form, for any
plaintext, whenever the iv is a well-formed 16-byte block and the block
primitive preserves well-formedness. -/
theorem isCF_encrypt (E : List Nat → List Nat) (hE : ∀ b, Valid16 b → Valid16 (E b))
    (iv pt : List Nat) (hiv : Valid16 iv) : isCF (encrypt E iv pt) = true := by
  have hb : ∀ x ∈ toBytes pt, x < 256 := toBytes_lt pt
  have hPv : ∀ p ∈ chunk16 (pad16 (toBytes pt)), Valid16 p :=
    chunk16_valid _ (pad16_mod _) (pad16_lt _ hb)
  have hCv : ∀ c ∈ cbcEnc E iv (chunk16 (pad16 (toBytes pt))), Valid16 c :=
    cbcEnc_valid E hE _ iv hPv hiv
  have hClen : ∀ c ∈ cbcEnc E iv (chunk16 (pad16 (toBytes pt))), c.length = 16 :=
    fun c hc => (hCv c hc).1
  have hctne : (cbcEnc E iv (chunk16 (pad16 (toBytes pt)))).flatten ≠ [] :=
    flatten_blocks_ne_nil _
      (cbcEnc_ne_nil E iv _ (chunk16_ne_nil _ (pad16_ne_nil _))) hClen
  have hivne : iv ≠ [] := by
    intro h
    have := congrArg List.length h
    rw [hiv.1] at this
    simp at this
  have hahex : ∀ c ∈ bytesHex iv, isHexChar c = true := bytesHex_all_hex iv
  have h58 : isHexChar 58 = false := rfl
  have hsplit := takeWhile_dropWhile_break isHexChar (bytesHex iv) 58
    (bytesHex ((cbcEnc E iv (chunk16 (pad16 (toBytes pt)))).flatten)) hahex h58
  unfold encrypt isCF
  rw [List.append_assoc]
  simp only [List.singleton_append, hsplit.1, hsplit.2]
  have hane : (bytesHex iv).isEmpty = false := by
    cases ha : bytesHex iv with
    | nil => exact absurd ha (bytesHex_ne_nil iv hivne)
    | cons c l => rfl
  have hbne : (bytesHex ((cbcEnc E iv (chunk16 (pad16 (toBytes pt)))).flatten)).isEmpty
      = false := by
    cases hbb : bytesHex ((cbcEnc E iv (chunk16 (pad16 (toBytes pt)))).flatten) with
    | nil => exact absurd hbb (bytesHex_ne_nil _ hctne)
    | cons c l => rfl
  have hball : (bytesHex ((cbcEnc E iv (chunk16 (pad16 (toBytes pt)))).flatten)).all
      isHexChar = true := by
    rw [List.all_eq_true]
    intro c hc
    exact bytesHex_all_hex _ c hc
  simp only [hane, hbne, hball, Bool.not_false, Bool.and_self]

/-- Rows surviving a removal were already in the table. -/
theorem mem_removeT {r : StorageItem} (t : Table) (i : List Nat)
    (h : r ∈ removeT t i) : r ∈ t := by
  induction t with
  | nil => simp [removeT] at h
  | cons x rs ih =>
    unfold removeT at h
    split_ifs at h with hx
    · exact List.mem_cons_of_mem x (ih h)
    · rcases List.mem_cons.1 h with rfl | h'
      · exact List.mem_cons_self _ _
      · exact List.mem_cons_of_mem x (ih h')

/-- A successful lookup returns a row of the table. -/
theorem lookupT_mem {row : StorageItem} (t : Table) (i : List Nat)
    (h : lookupT t i = some row) : row ∈ t := by
  induction t with
  | nil => simp [lookupT] at h
  | cons x rs ih =>
    unfold lookupT at h
    split_ifs at h with hx
    · rcases Option.some.inj h with rfl
      exact List.mem_cons_self _ _
    · exact List.mem_cons_of_mem x (ih h)

/-- Removal preserves the at-rest invariant. -/
theorem cipherStored_removeT (t : Table) (i : List Nat) (ht : CipherStored t) :
    CipherStored (removeT t i) :=
  fun r hr => ht r (mem_removeT t i hr)

/-- A put preserves the at-rest invariant when the new row satisfies it. -/
theorem cipherStored_putT (t : Table) (row : StorageItem) (ht : CipherStored t)
    (hn : isCF row.name = true) (hs : isCF row.stock = true) (hp : isCF row.price = true) :
    CipherStored (putT t row) := by
  intro r hr
  unfold putT at hr
  rcases List.mem_append.1 hr with h | h
  · exact ht r (mem_removeT t row.id h)
  · rcases List.mem_singleton.1 h with rfl
    exact ⟨hn, hs, hp⟩

/-- Every value appearing in a built update expression is an `encrypt`
output and hence in serialized cipher form. -/
theorem buildClauses_isCF (E : List Nat → List Nat) (hE : ∀ b, Valid16 b → Valid16 (E b))
    (iv1 iv2 iv3 : List Nat) (b : Body)
    (h1 : Valid16 iv1) (h2 : Valid16 iv2) (h3 : Valid16 iv3) :
    ∀ fv ∈ buildClauses E iv1 iv2 iv3 b, isCF fv.2 = true := by
  intro fv hfv
  unfold buildClauses at hfv
  rcases List.mem_append.1 hfv with hf | hf
  · rcases List.mem_append.1 hf with hg | hg
    · split at hg
      · rcases List.mem_singleton.1 hg with rfl
        exact isCF_encrypt E hE iv1 _ h1
      · simp at hg
    · split at hg
      · rcases List.mem_singleton.1 hg with rfl
        exact isCF_encrypt E hE iv2 _ h2
      · simp at hg
  · split at hf
    · rcases List.mem_singleton.1 hf with rfl
      exact isCF_encrypt E hE iv3 _ h3
    · simp at hf

/-- Applying cipher-form clauses to a cipher-form row yields a cipher-form
row (untouched fields keep their stored values). -/
theorem applyClauses_isCF (cs : List (UpdField × List Nat)) (row : StorageItem)
    (hr : isCF row.name = true ∧ isCF row.stock = true ∧ isCF row.price = true)
    (hcs : ∀ fv ∈ cs, isCF fv.2 = true) :
    isCF (applyClauses row cs).name = true ∧ isCF (applyClauses row cs).stock = true ∧
      isCF (applyClauses row cs).price = true := by
  induction cs generalizing row with
  | nil => exact hr
  | cons fv rest ih =>
    have hv : isCF fv.2 = true := hcs fv (by simp)
    obtain ⟨f, v⟩ := fv
    apply ih (setField row (f, v))
    · cases f
      · exact ⟨hv, hr.2.1, hr.2.2⟩
      · exact ⟨hr.1, hv, hr.2.2⟩
      · exact ⟨hr.1, hr.2.1, hv⟩
    · exact fun x hx => hcs x (by simp [hx])

/-- One handler invocation preserves the at-rest invariant (the only table
writes are a POST put of freshly encrypted fields, a PUT conditional
update whose clause values are freshly encrypted, and a DELETE removal). -/
theorem handle_cipherStored (E D : List Nat → List Nat)
    (uuid iv1 iv2 iv3 : List Nat) (ev : Event) (t : Table)
    (hE : ∀ b, Valid16 b → Valid16 (E b))
    (h1 : Valid16 iv1) (h2 : Valid16 iv2) (h3 : Valid16 iv3)
    (ht : CipherStored t) :
    CipherStored (handle E D uuid iv1 iv2 iv3 ev t).table := by
  obtain ⟨m, q, bd⟩ := ev
  cases m
  case GET => exact ht
  case OTHER => exact ht
  case POST =>
    cases bd with
    | absent => exact ht
    | invalid => exact ht
    | parsed b =>
      simp only [handle, handlePost]
      split
      · exact ht
      · exact cipherStored_putT t _ ht (isCF_encrypt E hE iv1 _ h1)
          (isCF_encrypt E hE iv2 _ h2) (isCF_encrypt E hE iv3 _ h3)
  case DELETE =>
    cases q with
    | none => exact ht
    | some qq =>
      simp only [handle, handleDelete]
      split
      · exact ht
      · split
        · exact cipherStored_removeT t _ ht
        · exact cipherStored_removeT t _ ht
  case PUT =>
    cases q with
    | none => exact ht
    | some qq =>
      cases bd with
      | absent =>
        simp only [handle, handlePut]
        split
        · exact ht
        · exact ht
      | invalid =>
        simp only [handle, handlePut]
        split
        · exact ht
        · exact ht
      | parsed b =>
        simp only [handle, handlePut]
        split
        · exact ht
        · split
          · exact ht
          · split
            · exact ht
            · rename_i row hrow
              have hf := applyClauses_isCF _ row (ht row (lookupT_mem t _ hrow))
                (buildClauses_isCF E hE iv1 iv2 iv3 b h1 h2 h3)
              exact cipherStored_putT t _ ht hf.1 hf.2.1 hf.2.2

/-- Claim C2: in every table reachable through Create/Read/Update/Delete
invocations (fresh well-formed ivs, block primitive preserving
well-formedness), every stored row's `name`, `stock` and `price` are in
serialized cipher form `hex(iv) + ":" + hex(ciphertext)` — they are stored
only as `encrypt` outputs (stock and price stringified before encryption),
while `id` is stored as the raw generated string. -/
theorem spec_c2_at_rest_cipher_form (E D : List Nat → List Nat)
    (hE : ∀ b, Valid16 b → Valid16 (E b)) (t : Table) (hr : Reachable E D t) :
    CipherStored t := by
  induction hr with
  | empty => intro r hr; simp at hr
  | step uuid iv1 iv2 iv3 ev t' _ hv1 hv2 hv3 ih =>
    exact handle_cipherStored E D uuid iv1 iv2 iv3 ev t' hE hv1 hv2 hv3 ih

/-- Witness for C2: the table reached by one concrete Create followed by
one concrete Update satisfies the at-rest invariant. -/
theorem spec_c2_witness :
    CipherStored (handle toyE toyD (strB "u2") iv0 iv0 iv0
      ⟨Method.PUT, some ⟨some (strB "u1"), none⟩,
        BodyField.parsed { stock := some 0 }⟩
      (handle toyE toyD (strB "u1") iv0 iv0 iv0
        ⟨Method.POST, none,
          BodyField.parsed { name := some (strB "apple"), stock := some 10, price := some 3 }⟩
        []).table).table :=
  spec_c2_at_rest_cipher_form toyE toyD toyE_valid16 _
    (Reachable.step (strB "u2") iv0 iv0 iv0 _ _
      (Reachable.step (strB "u1") iv0 iv0 iv0 _ [] Reachable.empty
        iv0_valid16 iv0_valid16 iv0_valid16)
      iv0_valid16 iv0_valid16 iv0_valid16)
